import Mathlib

/-!
Shallow embedding of the instrumented crawl-and-mine pipeline of this
repository (source files `log_crawler.py` and `site_crawler.py`), together
with theorems settling the specification claims about it.

Conventions of the embedding:

* Python strings are Lean `String`s / `List Char`; log files are lists of
  lines; the filesystem tree handed to the miner is an explicit value.
* `re.escape` followed by `re.compile(r"\b(e1|e2|...)\b", re.IGNORECASE)`
  over the escaped entries denotes a matcher that matches each original
  entry *literally* (escaping strips all regex meaning), caselessly, with a
  word-boundary test on both sides.  The embedding therefore keeps the
  original entry strings and gives the matcher its literal semantics
  directly: `\b` is modelled by `wordB`, caseless literal comparison by
  `caselessStrip`, alternation by first-match over the entry list, and the
  scan of `re.Pattern.search` / `re.Pattern.finditer` by an explicit
  left-to-right walk over the text.
* Word characters follow `\w` on the character data handled here: ASCII
  letters, digits and underscore.  Case-insensitivity follows `Char.toLower`.
* Mutable Python sets accumulated across files become duplicate-free lists
  in insertion order; exception handling becomes explicit result values.
-/

/-- Python's word-character test `\w` (ASCII letters, digits, underscore),
from which the `\b` boundary of the compiled pattern is defined. -/
def isWordChar (c : Char) : Bool := c.isAlphanum || c = '_'

/-- Word-character test extended to an optional character: a position
outside the text (before the first or after the last character) counts as
a non-word character, exactly as in the regex `\b` semantics. -/
def optIsWord : Option Char → Bool
  | none => false
  | some c => isWordChar c

/-- The regex word-boundary test `\b` between two adjacent positions of the
text: it holds when exactly one of the two neighbouring characters is a
word character. -/
def wordB (a b : Option Char) : Bool := optIsWord a != optIsWord b

/-- Caseless equality of two character lists, the semantics the
`re.IGNORECASE` flag gives to a literal (escaped) token. -/
def caselessEqL (a b : List Char) : Prop :=
  a.map Char.toLower = b.map Char.toLower

instance (a b : List Char) : Decidable (caselessEqL a b) := by
  unfold caselessEqL; infer_instance

/-- Try to read the literal token `e` caselessly at the front of `rest`.
On success, return the matched text (the characters of `rest`, keeping the
text's own letter case, as `match.group(1)` does) and the remaining
suffix. -/
def caselessStrip : List Char → List Char → Option (List Char × List Char)
  | [], rest => some ([], rest)
  | _ :: _, [] => none
  | e :: es, c :: cs =>
    if e.toLower = c.toLower then
      (caselessStrip es cs).map (fun ms => (c :: ms.1, ms.2))
    else
      none

/-- The character just before the position that follows the matched text
`m`: the last character of `m`, or, when `m` is empty, the character that
was already before the match. -/
def endChar (m : List Char) (prev : Option Char) : Option Char :=
  match m.getLast? with
  | some c => some c
  | none => prev

/-- One alternative of the compiled pattern `\b(e1|...|en)\b` tried at one
position of the text: the literal token `e` must match caselessly at the
front of `rest` and both `\b` tests must hold (`prev` is the character
before the current position). -/
def tryEntry (prev : Option Char) (rest : List Char) (e : List Char) :
    Option (List Char × List Char) :=
  match caselessStrip e rest with
  | none => none
  | some ms =>
    if wordB prev rest.head? && wordB (endChar ms.1 prev) ms.2.head? then
      some ms
    else
      none

/-- The whole alternation tried at one position: the first entry (in
dictionary order, as in the regex alternation) that matches wins. -/
def findFirstAt (E : List (List Char)) (prev : Option Char)
    (rest : List Char) : Option (List Char × List Char) :=
  E.findSome? (tryEntry prev rest)

/-- `re.Pattern.search` of the compiled pattern: walk the text left to
right and report whether some position carries a match. -/
def searchGo (E : List (List Char)) : Option Char → List Char → Bool
  | prev, [] => (findFirstAt E prev []).isSome
  | prev, c :: cs => (findFirstAt E prev (c :: cs)).isSome || searchGo E (some c) cs

/-- A compiled pattern (the value `re.compile` returns in
`compile_pattern`): the list of dictionary entries of its alternation, in
dictionary order. -/
structure Pattern where
  entries : List String
deriving DecidableEq

/-- `compile_pattern` of `log_crawler.py`: `None` on an empty entry list,
otherwise the single combined matcher over all entries (no entry is
dropped). -/
def compile_pattern (escaped_list : List String) : Option Pattern :=
  if escaped_list = [] then none else some ⟨escaped_list⟩

/-- `pattern.search(text)`. -/
def Pattern.search (p : Pattern) (text : String) : Bool :=
  searchGo (p.entries.map String.toList) none text.toList

/-- One position of the `re.Pattern.finditer` scan: on a match record the
matched text (`group(1)`) and continue right after it (after an empty
match, advance one character); with no match here, advance one
character.  `recur` continues the scan. -/
def finditerBody (E : List (List Char))
    (recur : Option Char → List Char → List (List Char))
    (prev : Option Char) (rest : List Char) : List (List Char) :=
  match findFirstAt E prev rest with
  | some (m, s) =>
    match m with
    | [] =>
      match rest with
      | [] => [m]
      | c :: cs => m :: recur (some c) cs
    | _ :: _ => m :: recur (endChar m prev) s
  | none =>
    match rest with
    | [] => []
    | c :: cs => recur (some c) cs

/-- `re.Pattern.finditer`: scan left to right, one position per step.
`fuel` bounds the walk; `text.length + 1` steps always suffice. -/
def finditerGo (E : List (List Char)) : Nat → Option Char → List Char → List (List Char)
  | 0, _, _ => []
  | fuel + 1, prev, rest => finditerBody E (finditerGo E fuel) prev rest

/-- `[m.group(1) for m in pattern.finditer(line)]`. -/
def Pattern.finditer (p : Pattern) (line : String) : List String :=
  (finditerGo (p.entries.map String.toList) (line.toList.length + 1) none
      line.toList).map String.mk

/-- Python's `str.strip()` on the character list: drop whitespace from both
ends. -/
def stripChars (l : List Char) : List Char :=
  ((l.dropWhile Char.isWhitespace).reverse.dropWhile Char.isWhitespace).reverse

/-- Python's `str.strip()`. -/
def strip (s : String) : String := String.mk (stripChars s.toList)

/-- Python's `line.startswith('#')`. -/
def startsWithHash (s : String) : Bool :=
  match s.toList with
  | '#' :: _ => true
  | _ => false

/-- `load_list` of `log_crawler.py`: strip each line, drop blank lines and
lines starting with `#`.  (The source stores `re.escape(line)`; the
escaping is absorbed into the literal semantics of the matcher above, so
the entry kept here is the original stripped line.) -/
def load_list (lines : List String) : List String :=
  lines.filterMap (fun raw =>
    if strip raw = "" || startsWithHash (strip raw) then none else some (strip raw))

/-- Lexicographic comparison of character lists by code point, the order
Python's `sorted` uses on strings (an executable form of the list order
underlying `String`'s linear order). -/
def lexLeChars : List Char → List Char → Bool
  | [], _ => true
  | _ :: _, [] => false
  | a :: as, b :: bs => if a = b then lexLeChars as bs else decide (a < b)

/-- Lexicographic string comparison by code point. -/
def strLe (a b : String) : Bool := lexLeChars a.toList b.toList

/-- Insert a string into a lexicographically sorted list, keeping it
sorted. -/
def insertSorted (x : String) : List String → List String
  | [] => [x]
  | y :: ys => if strLe x y then x :: y :: ys else y :: insertSorted x ys

/-- Python's `sorted(...)` on strings (insertion sort; any sorting
algorithm denotes the same function on the inputs arising here, where the
sorted collection is duplicate-free). -/
def sortStrings (l : List String) : List String := l.foldr insertSorted []

/-- Python's `set.add`: a set is modelled as a duplicate-free list in
insertion order; adding an element already present changes nothing. -/
def setInsert (x : String) (l : List String) : List String :=
  if x ∈ l then l else l ++ [x]

/-- Add a list of elements to a set (`for m in ...: found.add(m.group(1))`). -/
def setInsertAll (xs : List String) (l : List String) : List String :=
  xs.foldl (fun acc x => setInsert x acc) l

/-- One log file as the miner sees it: either its list of lines, or a file
whose open/read raises (the `except` branch of `scan_log_file`). -/
inductive FileContent where
  | readable (lines : List String)
  | unreadable
deriving DecidableEq

/-- Whether a file is the unreadable kind (used to count the warning
lines the miner prints). -/
def isUnreadable : FileContent → Bool
  | .readable _ => false
  | .unreadable => true

/-- One line of one log file scanned against both optional patterns
(the body of the `for raw_line in f` loop of `scan_log_file`): each
pattern, when present, contributes every `finditer` match to its set. -/
def scanLine (dp fp : Option Pattern) (line : String)
    (acc : List String × List String) : List String × List String :=
  (match dp with
   | none => acc.1
   | some p => setInsertAll (p.finditer line) acc.1,
   match fp with
   | none => acc.2
   | some p => setInsertAll (p.finditer line) acc.2)

/-- `scan_log_file` of `log_crawler.py`: a readable file is streamed line
by line into the two match sets; a file that cannot be opened or read is
skipped, leaving the sets unchanged, and the returned flag records that a
warning was printed for it. -/
def scan_log_file (dp fp : Option Pattern) (file : FileContent)
    (acc : List String × List String) : (List String × List String) × Bool :=
  match file with
  | .readable lines => (lines.foldl (fun a line => scanLine dp fp line a) acc, false)
  | .unreadable => (acc, true)

/-- One turn of the per-site file loop of `main`: feed the running match
sets through `scan_log_file` and count the warning if the file was
skipped. -/
def scanStep (dp fp : Option Pattern)
    (st : (List String × List String) × Nat) (file : FileContent) :
    (List String × List String) × Nat :=
  ((scan_log_file dp fp file st.1).1,
    st.2 + if (scan_log_file dp fp file st.1).2 then 1 else 0)

/-- Steps 2-3 of `main` for one site directory: scan every `.log` file of
the site, accumulating the two match sets and counting the files skipped
with a warning. -/
def scanSite (dp fp : Option Pattern) (files : List FileContent) :
    (List String × List String) × Nat :=
  files.foldl (scanStep dp fp) (([], []), 0)

/-- One value of the output report: the `{"domains": [...], "functions":
[...]}` object emitted for a site.  Both fields are always present. -/
structure SiteEntry where
  domains : List String
  functions : List String
deriving DecidableEq

/-- The two compiled patterns of `main`
(`compile_pattern(list) if list else None` for each dictionary),
parametrized by the compiler. -/
def minerPatternsWith (compile : List String → Option Pattern)
    (domains_list functions_list : List String) :
    Option Pattern × Option Pattern :=
  (if domains_list ≠ [] then compile domains_list else none,
   if functions_list ≠ [] then compile functions_list else none)

/-- The two compiled patterns of `main` with the actual compiler. -/
def minerPatterns (domains_list functions_list : List String) :
    Option Pattern × Option Pattern :=
  minerPatternsWith compile_pattern domains_list functions_list

/-- Result of the mining phase: either the early `return` of `main` (error
printed, no output file written), or the report written to the output
file. -/
inductive MainOutcome where
  | earlyExit
  | wrote (report : List (String × SiteEntry))
deriving DecidableEq

/-- Step 4 of `main` for one site: emit a report entry exactly when one of
the two match sets is non-empty; when emitted, both sets appear, sorted
(an empty one as the empty sequence). -/
def emitSite (dp fp : Option Pattern) (site : String × List FileContent) :
    Option (String × SiteEntry) :=
  if (scanSite dp fp site.2).1.1 ≠ [] ∨ (scanSite dp fp site.2).1.2 ≠ [] then
    some (site.1,
      ⟨sortStrings (scanSite dp fp site.2).1.1,
        sortStrings (scanSite dp fp site.2).1.2⟩)
  else
    none

/-- The `results` mapping `main` accumulates over all site directories. -/
def buildReport (dp fp : Option Pattern)
    (sites : List (String × List FileContent)) : List (String × SiteEntry) :=
  sites.filterMap (emitSite dp fp)

/-- `main` of `log_crawler.py`, parametrized by the pattern compiler so
that the guard at its lines 73-75 (compilation failure) can be exercised:
load both dictionaries, compile them, bail out early if a non-empty
dictionary failed to compile, otherwise scan every site directory and
emit an entry exactly for the sites where some match was found, each
entry carrying both match sets sorted. -/
def mainWith (compile : List String → Option Pattern)
    (domLines funLines : List String)
    (sites : List (String × List FileContent)) : MainOutcome :=
  if (load_list domLines ≠ [] ∧
        (minerPatternsWith compile (load_list domLines) (load_list funLines)).1 = none) ∨
      (load_list funLines ≠ [] ∧
        (minerPatternsWith compile (load_list domLines) (load_list funLines)).2 = none) then
    MainOutcome.earlyExit
  else
    MainOutcome.wrote
      (buildReport (minerPatternsWith compile (load_list domLines) (load_list funLines)).1
        (minerPatternsWith compile (load_list domLines) (load_list funLines)).2 sites)

/-- `main` of `log_crawler.py` with its actual pattern compiler. -/
def minerMain (domLines funLines : List String)
    (sites : List (String × List FileContent)) : MainOutcome :=
  mainWith compile_pattern domLines funLines sites

/-- Deterministic serialization of one report entry, modelling the bytes
`json.dump(..., indent=2)` produces for it. -/
def renderEntry (name : String) (e : SiteEntry) : String :=
  "  \"" ++ name ++ "\": \x7b\"domains\": [" ++
    String.intercalate ", " (e.domains.map (fun s => "\"" ++ s ++ "\"")) ++
    "], \"functions\": [" ++
    String.intercalate ", " (e.functions.map (fun s => "\"" ++ s ++ "\"")) ++
    "]\x7d"

/-- Deterministic serialization of the whole report
(`json.dump(results, out_f, indent=2)`). -/
def renderReport (r : List (String × SiteEntry)) : String :=
  "\x7b\n" ++ String.intercalate ",\n" (r.map (fun p => renderEntry p.1 p.2)) ++ "\n\x7d"

/-- The bytes the mining phase leaves in the output file: none on the
early error return, the serialized report otherwise. -/
def renderMain : MainOutcome → Option String
  | .earlyExit => none
  | .wrote r => some (renderReport r)

/-- The sequential phases of `crawl` in `site_crawler.py`, in program
order: create the per-site output folder (line 102), create the browser
(line 127, after the stealth options), navigate (line 134), scroll
(line 136), dwell (line 139), harvest the logs and call buffer
(lines 142-162), write the four artifact files (lines 166-169), quit the
browser (line 171). -/
inductive Step where
  | mkdirStep
  | setupDriver
  | navigate
  | scroll
  | dwell
  | harvest
  | writeRequests
  | writeResponses
  | writeConsole
  | writeJsCalls
  | quitDriver
deriving DecidableEq, Fintype

/-- The four files of an artifact bundle. -/
inductive ArtifactFile where
  | requests
  | responses
  | console
  | js_calls
deriving DecidableEq, Fintype

/-- Observable outcome of one `crawl(url, idx)` call: which durable
side effects happened and whether the call returned normally (`ok`) or
raised (`ok = false`, the exception then reaching the caller's
`except`). -/
structure CrawlResult where
  dirCreated : Bool
  files : List ArtifactFile
  browserAcquired : Bool
  browserReleased : Bool
  ok : Bool
deriving DecidableEq

/-- The durable side effect of one step of `crawl`. -/
def stepEffect : Step → CrawlResult → CrawlResult
  | .mkdirStep, st => { st with dirCreated := true }
  | .setupDriver, st => { st with browserAcquired := true }
  | .navigate, st => st
  | .scroll, st => st
  | .dwell, st => st
  | .harvest, st => st
  | .writeRequests, st => { st with files := st.files ++ [.requests] }
  | .writeResponses, st => { st with files := st.files ++ [.responses] }
  | .writeConsole, st => { st with files := st.files ++ [.console] }
  | .writeJsCalls, st => { st with files := st.files ++ [.js_calls] }
  | .quitDriver, st => { st with browserReleased := true }

/-- The steps of `crawl` in source order. -/
def crawlSteps : List Step :=
  [.mkdirStep, .setupDriver, .navigate, .scroll, .dwell, .harvest,
   .writeRequests, .writeResponses, .writeConsole, .writeJsCalls, .quitDriver]

/-- Run the steps of `crawl` in order with a fault oracle: `failAt` names
the step (if any) whose underlying operation raises.  A raising step has
no effect and abandons the rest of the function body (there is no
`try`/`finally` inside `crawl`). -/
def runSteps (failAt : Option Step) : List Step → CrawlResult → CrawlResult
  | [], st => st
  | s :: rest, st =>
    if failAt = some s then { st with ok := false }
    else runSteps failAt rest (stepEffect s st)

/-- `crawl(url, idx)` under the fault oracle `failAt`. -/
def crawl (failAt : Option Step) : CrawlResult :=
  runSteps failAt crawlSteps
    { dirCreated := false, files := [], browserAcquired := false,
      browserReleased := false, ok := true }

/-- The `__main__` loop of `site_crawler.py`: one `crawl` per target URL,
each wrapped in `try`/`except` so that a raising crawl is logged and the
loop continues with the next target.  The oracle gives each target index
its own fault behaviour. -/
def orchestrate (targets : List String) (oracle : Nat → Option Step) :
    List (String × CrawlResult) :=
  targets.enum.map (fun p => (p.2, crawl (oracle p.1)))

/-- `MAX_SCROLLS` of `site_crawler.py`. -/
def MAX_SCROLLS : Nat := 100

/-- The loop body of `human_scroll`, counting executed iterations: at
iteration index `i` the driver reports viewport bottom `position i` and
total height `total i` (measured after the scroll and sleep of that
iteration); the loop breaks once `position >= total_height`, and
otherwise runs until the iteration budget is spent.  The JavaScript
measurements are modelled as integer-valued sequences; only their order
comparison is used. -/
def human_scroll_loop (position total : Nat → Int) : Nat → Nat → Nat
  | _, 0 => 0
  | i, fuel + 1 =>
    if position i ≥ total i then 1
    else 1 + human_scroll_loop position total (i + 1) fuel

/-- Number of iterations `human_scroll` executes under the measured
sequences, with the iteration cap `max_scrolls`. -/
def human_scroll_count (max_scrolls : Nat) (position total : Nat → Int) : Nat :=
  human_scroll_loop position total 0 max_scrolls

theorem caselessStrip_eq_some {e r m s : List Char}
    (h : caselessStrip e r = some (m, s)) :
    r = m ++ s ∧ caselessEqL e m := by
  induction e generalizing r m s with
  | nil =>
    simp only [caselessStrip, Option.some.injEq, Prod.mk.injEq] at h
    obtain ⟨hm, hs⟩ := h
    subst hm; subst hs
    exact ⟨rfl, rfl⟩
  | cons a as ih =>
    cases r with
    | nil => simp [caselessStrip] at h
    | cons c cs =>
      simp only [caselessStrip] at h
      split at h
      · cases hc : caselessStrip as cs with
        | none => rw [hc] at h; simp at h
        | some ms =>
          obtain ⟨m1, s1⟩ := ms
          rw [hc] at h
          simp only [Option.map, Option.some.injEq, Prod.mk.injEq] at h
          obtain ⟨hm, hs⟩ := h
          obtain ⟨hr, he⟩ := ih hc
          subst hm; subst hs; subst hr
          refine ⟨rfl, ?_⟩
          simpa [caselessEqL] using And.intro (by assumption) he
      · simp at h

theorem caselessStrip_append {e m : List Char} (s : List Char)
    (h : caselessEqL e m) : caselessStrip e (m ++ s) = some (m, s) := by
  induction e generalizing m with
  | nil =>
    have hm : m = [] := by
      cases m with
      | nil => rfl
      | cons c cs => simp [caselessEqL] at h
    subst hm
    rfl
  | cons a as ih =>
    cases m with
    | nil => simp [caselessEqL] at h
    | cons c cs =>
      simp only [caselessEqL, List.map_cons, List.cons.injEq] at h
      simp [caselessStrip, h.1, ih h.2]

theorem caselessEqL_length {a b : List Char} (h : caselessEqL a b) :
    a.length = b.length := by
  have := congrArg List.length h
  simpa using this

theorem endChar_nil (p : Option Char) : endChar [] p = p := rfl

theorem endChar_cons (c : Char) (cs : List Char) (p : Option Char) :
    endChar (c :: cs) p = endChar cs (some c) := by
  cases cs with
  | nil => rfl
  | cons d ds =>
    unfold endChar
    rw [List.getLast?_cons_cons]
    cases h : (d :: ds).getLast? with
    | none => simp at h
    | some x => rfl

theorem endChar_none (l : List Char) : endChar l none = l.getLast? := by
  unfold endChar
  cases l.getLast? <;> rfl

theorem searchGo_of_found {E : List (List Char)} {prev : Option Char}
    {rest : List Char} (h : (findFirstAt E prev rest).isSome = true) :
    searchGo E prev rest = true := by
  cases rest <;> simp [searchGo, h]

theorem searchGo_append (E : List (List Char)) (pre : List Char) :
    ∀ (prev : Option Char) (rest : List Char),
      searchGo E (endChar pre prev) rest = true →
      searchGo E prev (pre ++ rest) = true := by
  induction pre with
  | nil => intro prev rest h; simpa [endChar_nil] using h
  | cons c cs ih =>
    intro prev rest h
    rw [endChar_cons] at h
    have htail := ih (some c) rest h
    simp only [List.cons_append, searchGo]
    have htail2 : searchGo E (some c) (cs.append rest) = true := htail
    rw [htail2, Bool.or_true]

theorem findFirstAt_isSome_of_mem {E : List (List Char)} {e : List Char}
    (he : e ∈ E) {prev : Option Char} {rest : List Char}
    {v : List Char × List Char} (h : tryEntry prev rest e = some v) :
    (findFirstAt E prev rest).isSome = true := by
  induction E with
  | nil => cases he
  | cons a as ih =>
    rcases List.mem_cons.mp he with rfl | hmem
    · simp [findFirstAt, List.findSome?_cons, h]
    · unfold findFirstAt
      rw [List.findSome?_cons]
      cases hfa : tryEntry prev rest a with
      | some w => simp
      | none => exact ih hmem

theorem findFirstAt_eq_none {E : List (List Char)} {prev : Option Char}
    {rest : List Char} (h : ∀ e ∈ E, tryEntry prev rest e = none) :
    findFirstAt E prev rest = none := by
  induction E with
  | nil => rfl
  | cons a as ih =>
    unfold findFirstAt
    rw [List.findSome?_cons, h a (by simp)]
    exact ih (fun e hmem => h e (by simp [hmem]))

theorem tryEntry_none_of_boundary {prev : Option Char} {rest e : List Char}
    (h : wordB prev rest.head? = false) : tryEntry prev rest e = none := by
  unfold tryEntry
  cases caselessStrip e rest with
  | none => rfl
  | some ms => simp [h]

theorem search_matches_token {E : List (List Char)} {e : List Char} (he : e ∈ E)
    {tok : List Char} (pre post : List Char)
    (hceq : caselessEqL e tok)
    (hfirst : optIsWord tok.head? = true)
    (hlast : optIsWord tok.getLast? = true)
    (hpre : optIsWord pre.getLast? = false)
    (hpost : optIsWord post.head? = false) :
    searchGo E none (pre ++ (tok ++ post)) = true := by
  apply searchGo_append
  apply searchGo_of_found
  apply findFirstAt_isSome_of_mem he (v := (tok, post))
  unfold tryEntry
  rw [caselessStrip_append post hceq]
  cases htok : tok.head? with
  | none => rw [htok] at hfirst; simp [optIsWord] at hfirst
  | some c0 =>
    have htoknil : tok ≠ [] := by
      intro hnil; rw [hnil] at htok; simp at htok
    cases hlastc : tok.getLast? with
    | none => rw [hlastc] at hlast; simp [optIsWord] at hlast
    | some cl =>
      have hhead : (tok ++ post).head? = some c0 := by
        cases tok with
        | nil => simp at htok
        | cons a as => simpa using htok
      have hend : endChar tok (endChar pre none) = some cl := by
        unfold endChar
        rw [hlastc]
      have hprev : optIsWord (endChar pre none) = false := by
        rw [endChar_none]; exact hpre
      rw [htok] at hfirst
      rw [hlastc] at hlast
      simp [hhead, hend, wordB, hprev, hfirst, hlast, hpost]

theorem searchGo_interior {E : List (List Char)} (hne : ∀ e ∈ E, e ≠ []) :
    ∀ (rest : List Char), (∀ c ∈ rest, isWordChar c = true) →
    ∀ (prev : Option Char), optIsWord prev = true →
    searchGo E prev rest = false := by
  intro rest
  induction rest with
  | nil =>
    intro _ prev _
    have hnone : findFirstAt E prev [] = none := by
      apply findFirstAt_eq_none
      intro e hmem
      cases hE : e with
      | nil => exact absurd hE (hne e hmem)
      | cons a as => rfl
    simp [searchGo, hnone]
  | cons c cs ih =>
    intro hword prev hprev
    have hbound : wordB prev (some c) = false := by
      unfold wordB
      rw [hprev]
      simp [optIsWord, hword c (by simp)]
    have hnone : findFirstAt E prev (c :: cs) = none := by
      apply findFirstAt_eq_none
      intro e _
      exact tryEntry_none_of_boundary (by simpa using hbound)
    have htail : searchGo E (some c) cs = false :=
      ih (fun d hd => hword d (by simp [hd])) (some c)
        (by simp [optIsWord, hword c (by simp)])
    simp [searchGo, hnone, htail]

theorem search_no_subtoken_match {E : List (List Char)} (hne : ∀ e ∈ E, e ≠ [])
    (text : List Char)
    (hword : ∀ c ∈ text, isWordChar c = true)
    (hneq : ∀ e ∈ E, ¬ caselessEqL e text) :
    searchGo E none text = false := by
  cases text with
  | nil =>
    have hnone : findFirstAt E none [] = none := by
      apply findFirstAt_eq_none
      intro e hmem
      cases hE : e with
      | nil => exact absurd hE (hne e hmem)
      | cons a as => rfl
    simp [searchGo, hnone]
  | cons c cs =>
    have hnone : findFirstAt E none (c :: cs) = none := by
      apply findFirstAt_eq_none
      intro e hmem
      unfold tryEntry
      cases hs : caselessStrip e (c :: cs) with
      | none => rfl
      | some ms =>
        obtain ⟨m, srem⟩ := ms
        obtain ⟨hsplit, hceq⟩ := caselessStrip_eq_some hs
        have hmne : m ≠ [] := by
          intro hmnil
          have hlen := caselessEqL_length hceq
          rw [hmnil] at hlen
          simp only [List.length_nil, List.length_eq_zero] at hlen
          exact (hne e hmem) hlen
        have hmlast : ∃ d, m.getLast? = some d ∧ isWordChar d = true := by
          cases hm : m.getLast? with
          | none => exact absurd (List.getLast?_eq_none_iff.mp hm) hmne
          | some d =>
            refine ⟨d, rfl, ?_⟩
            apply hword
            rw [hsplit]
            exact List.mem_append_left _ (List.mem_of_mem_getLast? hm)
        obtain ⟨d, hd, hdw⟩ := hmlast
        have hendb : wordB (endChar m none) srem.head? = false := by
          cases hrem : srem with
          | nil =>
            exfalso
            rw [hrem, List.append_nil] at hsplit
            exact hneq e hmem (hsplit ▸ hceq)
          | cons x xs =>
            have hxw : isWordChar x = true := by
              apply hword
              rw [hsplit, hrem]
              exact List.mem_append_right _ (by simp)
            simp [wordB, endChar, hd, optIsWord, hdw, hxw]
        simp [hendb]
    have htail : searchGo E (some c) cs = false :=
      searchGo_interior hne cs (fun d hd => hword d (by simp [hd])) (some c)
        (by simp [optIsWord, hword c (by simp)])
    simp [searchGo, hnone, htail]

theorem load_list_mem_ne_nil {lines : List String} {s : String}
    (h : s ∈ load_list lines) : s.toList ≠ [] := by
  unfold load_list at h
  rw [List.mem_filterMap] at h
  obtain ⟨raw, _, hr⟩ := h
  split at hr
  · exact absurd hr (by simp)
  · rename_i hcond
    rw [Option.some.injEq] at hr
    subst hr
    intro htl
    apply hcond
    have hempty : strip raw = "" := String.toList_inj.mp (by rw [htl]; rfl)
    simp [hempty]

/-- C1: for a dictionary compiled from loaded entry lines, the combined
matcher (i) finds every entry occurring as a whole case-insensitive token
at word boundaries inside arbitrary text, (ii) reports no match in a text
that is one all-word-character token not caselessly equal to any entry —
so an entry occurring only as a strict substring of a longer unrelated
token is never matched — and (iii) matches entries literally: the regex
metacharacter `.` in an entry has no wildcard meaning. -/
theorem C1_whole_token_matcher (lines : List String) (p : Pattern)
    (hc : compile_pattern (load_list lines) = some p) :
    (∀ e ∈ p.entries, ∀ tok pre post : List Char,
        caselessEqL e.toList tok →
        optIsWord tok.head? = true →
        optIsWord tok.getLast? = true →
        optIsWord pre.getLast? = false →
        optIsWord post.head? = false →
        searchGo (p.entries.map String.toList) none (pre ++ (tok ++ post)) = true) ∧
    (∀ text : List Char,
        (∀ c ∈ text, isWordChar c = true) →
        (∀ e ∈ p.entries, ¬ caselessEqL e.toList text) →
        searchGo (p.entries.map String.toList) none text = false) ∧
    (Pattern.search ⟨["a.c"]⟩ "x a.c y" = true ∧
      Pattern.search ⟨["a.c"]⟩ "x abc y" = false) := by
  have hentries : p.entries = load_list lines := by
    unfold compile_pattern at hc
    split at hc
    · exact absurd hc (by simp)
    · rw [Option.some.injEq] at hc
      rw [← hc]
  refine ⟨?_, ?_, by decide, by decide⟩
  · intro e he tok pre post hceq hf hl hp hq
    exact search_matches_token (List.mem_map_of_mem String.toList he) pre post
      hceq hf hl hp hq
  · intro text hword hneq
    apply search_no_subtoken_match
    · intro el hel
      rw [List.mem_map] at hel
      obtain ⟨e, he, rfl⟩ := hel
      rw [hentries] at he
      exact load_list_mem_ne_nil he
    · exact hword
    · intro el hel
      rw [List.mem_map] at hel
      obtain ⟨e, he, rfl⟩ := hel
      exact hneq e he

/-- C1 witness: the entry `api.openai.com` of a one-entry dictionary is
found inside the URL `https://api.openai.com/v1/chat`. -/
theorem C1_whole_token_matcher_witness :
    searchGo (["api.openai.com"].map String.toList) none
      ("https://".toList ++ ("api.openai.com".toList ++ "/v1/chat".toList)) = true := by
  have h := (C1_whole_token_matcher ["api.openai.com"] ⟨["api.openai.com"]⟩ (by decide)).1
  exact h "api.openai.com" (by decide) "api.openai.com".toList "https://".toList
    "/v1/chat".toList (by decide) (by decide) (by decide) (by decide) (by decide)

theorem human_scroll_loop_le (position total : Nat → Int) :
    ∀ (fuel i : Nat), human_scroll_loop position total i fuel ≤ fuel := by
  intro fuel
  induction fuel with
  | zero => intro i; simp [human_scroll_loop]
  | succ f ih =>
    intro i
    unfold human_scroll_loop
    split
    · omega
    · have := ih (i + 1)
      omega

theorem human_scroll_loop_stops (position total : Nat → Int) :
    ∀ (k fuel i : Nat), k < fuel →
      (∀ j, j < k → position (i + j) < total (i + j)) →
      total (i + k) ≤ position (i + k) →
      human_scroll_loop position total i fuel = k + 1 := by
  intro k
  induction k with
  | zero =>
    intro fuel i hk hlt hstop
    cases fuel with
    | zero => omega
    | succ f =>
      unfold human_scroll_loop
      rw [if_pos]
      simpa using hstop
  | succ k ih =>
    intro fuel i hk hlt hstop
    cases fuel with
    | zero => omega
    | succ f =>
      unfold human_scroll_loop
      rw [if_neg]
      · rw [ih f (i + 1) (by omega) ?_ ?_]
        · omega
        · intro j hj
          have h := hlt (j + 1) (by omega)
          have heq : i + (j + 1) = i + 1 + j := by omega
          rwa [heq] at h
        · have heq : i + (k + 1) = i + 1 + k := by omega
          rwa [heq] at hstop
      · have h := hlt 0 (by omega)
        simp only [Nat.add_zero] at h
        omega

/-- C5: the scroll simulation runs at most `max_scrolls` iterations, and
if the measured viewport bottom first reaches the measured total height
on iteration `k + 1` (zero-based index `k`) within the 100-iteration cap,
exactly `k + 1` iterations are executed. -/
theorem C5_scroll_stops_early (position total : Nat → Int) :
    (∀ max_scrolls, human_scroll_count max_scrolls position total ≤ max_scrolls) ∧
    (∀ k, k < MAX_SCROLLS →
      (∀ j, j < k → position j < total j) →
      total k ≤ position k →
      human_scroll_count MAX_SCROLLS position total = k + 1) := by
  constructor
  · intro ms
    exact human_scroll_loop_le position total ms 0
  · intro k hk hlt hstop
    unfold human_scroll_count
    refine human_scroll_loop_stops position total k MAX_SCROLLS 0 hk ?_ ?_
    · intro j hj
      simpa using hlt j hj
    · simpa using hstop

/-- C5 witness: with the bottom measured at position `i` against a fixed
total height 6, the condition first holds on iteration 7, and exactly 7 of
the 100 allowed iterations run. -/
theorem C5_scroll_stops_early_witness :
    human_scroll_count MAX_SCROLLS (fun i => (i : Int)) (fun _ => (6 : Int)) = 7 := by
  have h := (C5_scroll_stops_early (fun i => (i : Int)) (fun _ => (6 : Int))).2 6
    (by decide) (by intro j hj; exact_mod_cast hj) (by norm_num)
  exact h

/-- C3 counterexample: inject a failure into the second artifact write
(`(out/"responses.json").write_text`, line 167 of `site_crawler.py`).  The
exception reaches the `__main__` handler, so the failure is logged, yet
`requests.json` has already been written: the failed Target leaves a
partially-written bundle, so "no Artifact Bundle at all" and "exactly one
of bundle sealed / failure logged" are both violated. -/
theorem C3_partial_bundle_counterexample :
    (crawl (some Step.writeResponses)).ok = false ∧
    (crawl (some Step.writeResponses)).files = [ArtifactFile.requests] := by decide

/-- C3 amended: every exception inside `crawl` is caught at the Target
boundary, each Target's outcome is independent of the other Targets'
faults, and the loop processes every Target; a Target that fails in
navigation, scrolling, or harvesting (before the write phase) produces no
artifact files, and a fault-free Target seals the full four-file bundle —
but a failure during the four sequential writes can leave a
partially-written bundle (the files already written remain on disk). -/
theorem C3_target_isolation_amended :
    (∀ (targets : List String) (oracle : Nat → Option Step),
      (orchestrate targets oracle).length = targets.length ∧
      ∀ i (hi : i < (orchestrate targets oracle).length),
        ((orchestrate targets oracle).get ⟨i, hi⟩).2 = crawl (oracle i)) ∧
    ((crawl none).ok = true ∧
      (crawl none).files = [ArtifactFile.requests, ArtifactFile.responses,
        ArtifactFile.console, ArtifactFile.js_calls]) ∧
    (∀ s, s ∈ [Step.mkdirStep, Step.setupDriver, Step.navigate, Step.scroll,
        Step.dwell, Step.harvest] → (crawl (some s)).files = []) ∧
    (∀ s : Step, (crawl (some s)).ok = false) := by
  refine ⟨?_, by decide, by decide, by decide⟩
  intro targets oracle
  constructor
  · simp [orchestrate]
  · intro i hi
    simp [orchestrate, List.get_eq_getElem]

/-- C3 witness: a navigation failure on the only Target is still processed
by the loop and leaves no artifact files. -/
theorem C3_target_isolation_amended_witness :
    (orchestrate ["example.com"] (fun _ => some Step.navigate)).length = 1 ∧
    (crawl (some Step.navigate)).files = [] :=
  ⟨(C3_target_isolation_amended.1 ["example.com"] (fun _ => some Step.navigate)).1,
    C3_target_isolation_amended.2.2.1 Step.navigate (by decide)⟩

/-- C4 counterexample: when navigation raises, `driver.quit()` (line 171,
the last statement of `crawl`, not guarded by any `finally`) never runs:
the browser was created but is not released. -/
theorem C4_release_counterexample :
    (crawl (some Step.navigate)).browserAcquired = true ∧
    (crawl (some Step.navigate)).browserReleased = false := by decide

/-- C4 amended: the Session releases its browser exactly on the fault-free
path; any failure in steps 3-6 (or in the write phase) skips the release
and leaks the browser instance. -/
theorem C4_release_only_on_success :
    ∀ failAt : Option Step, (crawl failAt).browserReleased = true ↔ failAt = none := by
  decide

/-- C4 witness: the fault-free session does release its browser. -/
theorem C4_release_only_on_success_witness :
    (crawl none).browserReleased = true :=
  (C4_release_only_on_success none).mpr rfl

theorem lexLeChars_cons_eq (a : Char) (as bs : List Char) :
    lexLeChars (a :: as) (a :: bs) = lexLeChars as bs := by
  simp [lexLeChars]

theorem lexLeChars_cons_ne {a b : Char} (h : ¬ a = b) (as bs : List Char) :
    lexLeChars (a :: as) (b :: bs) = decide (a < b) := by
  simp [lexLeChars, h]

theorem lexLe_iff_not_lt : ∀ x y : List Char,
    lexLeChars x y = true ↔ ¬ List.Lex (· < ·) y x
  | [], y => by
    refine iff_of_true rfl ?_
    intro h
    cases h
  | a :: as, [] => by
    refine iff_of_false ?_ ?_
    · intro h
      simp [lexLeChars] at h
    · intro h
      exact h List.Lex.nil
  | a :: as, b :: bs => by
    by_cases hab : a = b
    · subst hab
      rw [lexLeChars_cons_eq, lexLe_iff_not_lt as bs]
      constructor
      · intro h hlt
        cases hlt with
        | cons h2 => exact h h2
        | rel h2 => exact absurd h2 (lt_irrefl a)
      · intro h h2
        exact h (List.Lex.cons h2)
    · rw [lexLeChars_cons_ne hab]
      constructor
      · intro hd hlt
        have hab2 : a < b := of_decide_eq_true hd
        cases hlt with
        | cons h2 => exact absurd rfl hab
        | rel h2 => exact absurd hab2 (asymm h2)
      · intro h
        apply decide_eq_true
        rcases lt_trichotomy a b with hl | he | hg
        · exact hl
        · exact absurd he hab
        · exact absurd (List.Lex.rel hg) h

theorem strLe_iff_le {a b : String} : strLe a b = true ↔ a ≤ b := by
  rw [String.le_iff_toList_le, ← not_lt]
  exact lexLe_iff_not_lt a.toList b.toList

theorem lexLe_total : ∀ x y : List Char, lexLeChars x y = true ∨ lexLeChars y x = true
  | [], _ => Or.inl rfl
  | _ :: _, [] => Or.inr rfl
  | a :: as, b :: bs => by
    by_cases hab : a = b
    · subst hab
      rcases lexLe_total as bs with h | h
      · left
        rw [lexLeChars_cons_eq]
        exact h
      · right
        rw [lexLeChars_cons_eq]
        exact h
    · rcases lt_trichotomy a b with hl | he | hg
      · left
        rw [lexLeChars_cons_ne hab]
        exact decide_eq_true hl
      · exact absurd he hab
      · right
        rw [lexLeChars_cons_ne (fun h => hab h.symm)]
        exact decide_eq_true hg

theorem mem_insertSorted {x y : String} : ∀ {l : List String},
    y ∈ insertSorted x l ↔ y = x ∨ y ∈ l
  | [] => by simp [insertSorted]
  | z :: zs => by
    unfold insertSorted
    split
    · exact List.mem_cons
    · rw [List.mem_cons, mem_insertSorted (l := zs), List.mem_cons]
      tauto

theorem sorted_insertSorted (x : String) : ∀ (l : List String),
    List.Sorted (· ≤ ·) l → List.Sorted (· ≤ ·) (insertSorted x l)
  | [], _ => by simp [insertSorted]
  | y :: ys, h => by
    rw [List.sorted_cons] at h
    obtain ⟨hy, hys⟩ := h
    unfold insertSorted
    split
    · rename_i hxy
      rw [List.sorted_cons]
      refine ⟨?_, List.sorted_cons.mpr ⟨hy, hys⟩⟩
      intro b hb
      rcases List.mem_cons.mp hb with rfl | hbys
      · exact strLe_iff_le.mp hxy
      · exact le_trans (strLe_iff_le.mp hxy) (hy b hbys)
    · rename_i hxy
      rw [List.sorted_cons]
      refine ⟨?_, sorted_insertSorted x ys hys⟩
      intro b hb
      rcases mem_insertSorted.mp hb with rfl | hbys
      · have hyx : strLe y b = true := by
          rcases lexLe_total b.toList y.toList with h | h
          · exact absurd h hxy
          · exact h
        exact strLe_iff_le.mp hyx
      · exact hy b hbys

theorem nodup_insertSorted (x : String) : ∀ (l : List String),
    x ∉ l → l.Nodup → (insertSorted x l).Nodup
  | [], _, _ => by simp [insertSorted]
  | y :: ys, hx, hnd => by
    rw [List.nodup_cons] at hnd
    unfold insertSorted
    split
    · exact List.nodup_cons.mpr ⟨hx, List.nodup_cons.mpr hnd⟩
    · rw [List.nodup_cons]
      constructor
      · intro hmem
        rcases mem_insertSorted.mp hmem with heq | hmem2
        · exact hx (by rw [heq]; exact List.mem_cons_self x ys)
        · exact hnd.1 hmem2
      · exact nodup_insertSorted x ys (fun h => hx (List.mem_cons_of_mem y h)) hnd.2

theorem mem_sortStrings {y : String} : ∀ {l : List String}, y ∈ sortStrings l ↔ y ∈ l
  | [] => Iff.rfl
  | x :: xs => by
    show y ∈ insertSorted x (sortStrings xs) ↔ _
    rw [mem_insertSorted, mem_sortStrings (l := xs), List.mem_cons]

theorem sorted_sortStrings : ∀ (l : List String), List.Sorted (· ≤ ·) (sortStrings l)
  | [] => List.sorted_nil
  | x :: xs => sorted_insertSorted x (sortStrings xs) (sorted_sortStrings xs)

theorem nodup_sortStrings : ∀ (l : List String), l.Nodup → (sortStrings l).Nodup
  | [], _ => List.nodup_nil
  | x :: xs, h => by
    rw [List.nodup_cons] at h
    exact nodup_insertSorted x (sortStrings xs)
      (fun hm => h.1 (mem_sortStrings.mp hm)) (nodup_sortStrings xs h.2)

theorem perm_insertSorted (x : String) : ∀ (l : List String),
    List.Perm (insertSorted x l) (x :: l)
  | [] => List.Perm.refl _
  | y :: ys => by
    unfold insertSorted
    split
    · exact List.Perm.refl _
    · exact ((perm_insertSorted x ys).cons y).trans (List.Perm.swap x y ys)

theorem perm_sortStrings : ∀ (l : List String), List.Perm (sortStrings l) l
  | [] => List.Perm.refl _
  | x :: xs => (perm_insertSorted x (sortStrings xs)).trans ((perm_sortStrings xs).cons x)

theorem sortStrings_eq_of_nodup_mem_iff {l l2 : List String}
    (hl : l.Nodup) (hl2 : l2.Nodup) (h : ∀ y, y ∈ l ↔ y ∈ l2) :
    sortStrings l = sortStrings l2 := by
  have hp : List.Perm l l2 := List.Subperm.antisymm
    (List.subperm_of_subset hl (fun y hy => (h y).mp hy))
    (List.subperm_of_subset hl2 (fun y hy => (h y).mpr hy))
  exact List.eq_of_perm_of_sorted
    (((perm_sortStrings l).trans hp).trans (perm_sortStrings l2).symm)
    (sorted_sortStrings l) (sorted_sortStrings l2)

theorem mem_setInsert {x y : String} {l : List String} :
    y ∈ setInsert x l ↔ y = x ∨ y ∈ l := by
  unfold setInsert
  split
  · rename_i hx
    constructor
    · exact Or.inr
    · rintro (rfl | h)
      · exact hx
      · exact h
  · simp [List.mem_append, or_comm]

theorem nodup_setInsert (x : String) (l : List String) (h : l.Nodup) :
    (setInsert x l).Nodup := by
  unfold setInsert
  split
  · exact h
  · rename_i hx
    simp [List.nodup_append, h, hx]

theorem mem_setInsertAll {y : String} : ∀ (xs l : List String),
    y ∈ setInsertAll xs l ↔ y ∈ xs ∨ y ∈ l
  | [], l => by simp [setInsertAll]
  | x :: xs, l => by
    show y ∈ setInsertAll xs (setInsert x l) ↔ _
    rw [mem_setInsertAll xs (setInsert x l), mem_setInsert, List.mem_cons]
    tauto

theorem nodup_setInsertAll : ∀ (xs l : List String), l.Nodup → (setInsertAll xs l).Nodup
  | [], _, h => h
  | x :: xs, l, h => nodup_setInsertAll xs (setInsert x l) (nodup_setInsert x l h)

theorem mem_scanLine_fst {dp fp : Option Pattern} {line y : String}
    {acc : List String × List String} :
    y ∈ (scanLine dp fp line acc).1 ↔
      (∃ p, dp = some p ∧ y ∈ p.finditer line) ∨ y ∈ acc.1 := by
  cases dp with
  | none => simp [scanLine]
  | some p =>
    show y ∈ setInsertAll (p.finditer line) acc.1 ↔ _
    rw [mem_setInsertAll]
    simp

theorem mem_scanLine_snd {dp fp : Option Pattern} {line y : String}
    {acc : List String × List String} :
    y ∈ (scanLine dp fp line acc).2 ↔
      (∃ p, fp = some p ∧ y ∈ p.finditer line) ∨ y ∈ acc.2 := by
  cases fp with
  | none => simp [scanLine]
  | some p =>
    show y ∈ setInsertAll (p.finditer line) acc.2 ↔ _
    rw [mem_setInsertAll]
    simp

theorem nodup_scanLine {dp fp : Option Pattern} {line : String}
    {acc : List String × List String} (h1 : acc.1.Nodup) (h2 : acc.2.Nodup) :
    (scanLine dp fp line acc).1.Nodup ∧ (scanLine dp fp line acc).2.Nodup := by
  cases dp <;> cases fp <;>
    exact ⟨by first | exact h1 | exact nodup_setInsertAll _ _ h1,
      by first | exact h2 | exact nodup_setInsertAll _ _ h2⟩

theorem mem_scanLines_fst {dp fp : Option Pattern} {y : String} :
    ∀ (lines : List String) (acc : List String × List String),
    y ∈ (lines.foldl (fun a line => scanLine dp fp line a) acc).1 ↔
      (∃ line ∈ lines, ∃ p, dp = some p ∧ y ∈ p.finditer line) ∨ y ∈ acc.1
  | [], acc => by simp
  | line :: ls, acc => by
    rw [List.foldl_cons, mem_scanLines_fst ls (scanLine dp fp line acc),
      mem_scanLine_fst]
    constructor
    · rintro (⟨l2, hl2, hR⟩ | hmid | hacc)
      · exact Or.inl ⟨l2, List.mem_cons_of_mem _ hl2, hR⟩
      · exact Or.inl ⟨line, List.mem_cons_self _ _, hmid⟩
      · exact Or.inr hacc
    · rintro (⟨l2, hl2, hR⟩ | hacc)
      · rcases List.mem_cons.mp hl2 with rfl | hmem
        · exact Or.inr (Or.inl hR)
        · exact Or.inl ⟨l2, hmem, hR⟩
      · exact Or.inr (Or.inr hacc)

theorem mem_scanLines_snd {dp fp : Option Pattern} {y : String} :
    ∀ (lines : List String) (acc : List String × List String),
    y ∈ (lines.foldl (fun a line => scanLine dp fp line a) acc).2 ↔
      (∃ line ∈ lines, ∃ p, fp = some p ∧ y ∈ p.finditer line) ∨ y ∈ acc.2
  | [], acc => by simp
  | line :: ls, acc => by
    rw [List.foldl_cons, mem_scanLines_snd ls (scanLine dp fp line acc),
      mem_scanLine_snd]
    constructor
    · rintro (⟨l2, hl2, hR⟩ | hmid | hacc)
      · exact Or.inl ⟨l2, List.mem_cons_of_mem _ hl2, hR⟩
      · exact Or.inl ⟨line, List.mem_cons_self _ _, hmid⟩
      · exact Or.inr hacc
    · rintro (⟨l2, hl2, hR⟩ | hacc)
      · rcases List.mem_cons.mp hl2 with rfl | hmem
        · exact Or.inr (Or.inl hR)
        · exact Or.inl ⟨l2, hmem, hR⟩
      · exact Or.inr (Or.inr hacc)

theorem nodup_scanLines {dp fp : Option Pattern} :
    ∀ (lines : List String) (acc : List String × List String),
    acc.1.Nodup → acc.2.Nodup →
    ((lines.foldl (fun a line => scanLine dp fp line a) acc).1.Nodup ∧
      (lines.foldl (fun a line => scanLine dp fp line a) acc).2.Nodup)
  | [], acc, h1, h2 => ⟨h1, h2⟩
  | line :: ls, acc, h1, h2 => by
    rw [List.foldl_cons]
    have h : (scanLine dp fp line acc).1.Nodup ∧ (scanLine dp fp line acc).2.Nodup :=
      nodup_scanLine h1 h2
    exact nodup_scanLines ls (scanLine dp fp line acc) h.1 h.2

theorem mem_scan_log_file_fst {dp fp : Option Pattern} {file : FileContent}
    {acc : List String × List String} {y : String} :
    y ∈ (scan_log_file dp fp file acc).1.1 ↔
      (∃ lines, file = FileContent.readable lines ∧
        ∃ line ∈ lines, ∃ p, dp = some p ∧ y ∈ p.finditer line) ∨ y ∈ acc.1 := by
  cases file with
  | readable lines =>
    show y ∈ (lines.foldl (fun a line => scanLine dp fp line a) acc).1 ↔ _
    rw [mem_scanLines_fst]
    simp
  | unreadable => simp [scan_log_file]

theorem mem_scan_log_file_snd {dp fp : Option Pattern} {file : FileContent}
    {acc : List String × List String} {y : String} :
    y ∈ (scan_log_file dp fp file acc).1.2 ↔
      (∃ lines, file = FileContent.readable lines ∧
        ∃ line ∈ lines, ∃ p, fp = some p ∧ y ∈ p.finditer line) ∨ y ∈ acc.2 := by
  cases file with
  | readable lines =>
    show y ∈ (lines.foldl (fun a line => scanLine dp fp line a) acc).2 ↔ _
    rw [mem_scanLines_snd]
    simp
  | unreadable => simp [scan_log_file]

theorem nodup_scan_log_file {dp fp : Option Pattern} {file : FileContent}
    {acc : List String × List String} (h1 : acc.1.Nodup) (h2 : acc.2.Nodup) :
    (scan_log_file dp fp file acc).1.1.Nodup ∧ (scan_log_file dp fp file acc).1.2.Nodup := by
  cases file with
  | readable lines => exact nodup_scanLines lines acc h1 h2
  | unreadable => exact ⟨h1, h2⟩

theorem mem_scanSiteFold_fst {dp fp : Option Pattern} {y : String} :
    ∀ (files : List FileContent) (st : (List String × List String) × Nat),
    y ∈ (files.foldl (scanStep dp fp) st).1.1 ↔
      (∃ lines, FileContent.readable lines ∈ files ∧
        ∃ line ∈ lines, ∃ p, dp = some p ∧ y ∈ p.finditer line) ∨ y ∈ st.1.1
  | [], st => by simp
  | file :: fs, st => by
    rw [List.foldl_cons, mem_scanSiteFold_fst fs (scanStep dp fp st file)]
    have hstep : y ∈ (scanStep dp fp st file).1.1 ↔
        (∃ lines, file = FileContent.readable lines ∧
          ∃ line ∈ lines, ∃ p, dp = some p ∧ y ∈ p.finditer line) ∨ y ∈ st.1.1 :=
      mem_scan_log_file_fst
    rw [hstep]
    constructor
    · rintro (⟨lines, hmem, hR⟩ | ⟨lines, hfile, hR⟩ | hacc)
      · exact Or.inl ⟨lines, List.mem_cons_of_mem _ hmem, hR⟩
      · exact Or.inl ⟨lines, by rw [← hfile]; exact List.mem_cons_self _ _, hR⟩
      · exact Or.inr hacc
    · rintro (⟨lines, hmem, hR⟩ | hacc)
      · rcases List.mem_cons.mp hmem with heq | hmem2
        · exact Or.inr (Or.inl ⟨lines, heq.symm, hR⟩)
        · exact Or.inl ⟨lines, hmem2, hR⟩
      · exact Or.inr (Or.inr hacc)

theorem mem_scanSiteFold_snd {dp fp : Option Pattern} {y : String} :
    ∀ (files : List FileContent) (st : (List String × List String) × Nat),
    y ∈ (files.foldl (scanStep dp fp) st).1.2 ↔
      (∃ lines, FileContent.readable lines ∈ files ∧
        ∃ line ∈ lines, ∃ p, fp = some p ∧ y ∈ p.finditer line) ∨ y ∈ st.1.2
  | [], st => by simp
  | file :: fs, st => by
    rw [List.foldl_cons, mem_scanSiteFold_snd fs (scanStep dp fp st file)]
    have hstep : y ∈ (scanStep dp fp st file).1.2 ↔
        (∃ lines, file = FileContent.readable lines ∧
          ∃ line ∈ lines, ∃ p, fp = some p ∧ y ∈ p.finditer line) ∨ y ∈ st.1.2 :=
      mem_scan_log_file_snd
    rw [hstep]
    constructor
    · rintro (⟨lines, hmem, hR⟩ | ⟨lines, hfile, hR⟩ | hacc)
      · exact Or.inl ⟨lines, List.mem_cons_of_mem _ hmem, hR⟩
      · exact Or.inl ⟨lines, by rw [← hfile]; exact List.mem_cons_self _ _, hR⟩
      · exact Or.inr hacc
    · rintro (⟨lines, hmem, hR⟩ | hacc)
      · rcases List.mem_cons.mp hmem with heq | hmem2
        · exact Or.inr (Or.inl ⟨lines, heq.symm, hR⟩)
        · exact Or.inl ⟨lines, hmem2, hR⟩
      · exact Or.inr (Or.inr hacc)

theorem mem_scanSite_fst {dp fp : Option Pattern} {y : String}
    {files : List FileContent} :
    y ∈ (scanSite dp fp files).1.1 ↔
      ∃ lines, FileContent.readable lines ∈ files ∧
        ∃ line ∈ lines, ∃ p, dp = some p ∧ y ∈ p.finditer line := by
  rw [scanSite, mem_scanSiteFold_fst]
  simp

theorem mem_scanSite_snd {dp fp : Option Pattern} {y : String}
    {files : List FileContent} :
    y ∈ (scanSite dp fp files).1.2 ↔
      ∃ lines, FileContent.readable lines ∈ files ∧
        ∃ line ∈ lines, ∃ p, fp = some p ∧ y ∈ p.finditer line := by
  rw [scanSite, mem_scanSiteFold_snd]
  simp

theorem scanStep_snd (dp fp : Option Pattern)
    (st : (List String × List String) × Nat) (file : FileContent) :
    (scanStep dp fp st file).2 = st.2 + if isUnreadable file then 1 else 0 := by
  cases file <;> rfl

theorem scanSiteFold_warn {dp fp : Option Pattern} :
    ∀ (files : List FileContent) (st : (List String × List String) × Nat),
    (files.foldl (scanStep dp fp) st).2 = st.2 + files.countP isUnreadable
  | [], st => by simp
  | file :: fs, st => by
    rw [List.foldl_cons, scanSiteFold_warn fs (scanStep dp fp st file), scanStep_snd,
      List.countP_cons]
    omega

theorem scanSite_warn {dp fp : Option Pattern} {files : List FileContent} :
    (scanSite dp fp files).2 = files.countP isUnreadable := by
  rw [scanSite, scanSiteFold_warn]
  omega

theorem nodup_scanSiteFold {dp fp : Option Pattern} :
    ∀ (files : List FileContent) (st : (List String × List String) × Nat),
    st.1.1.Nodup → st.1.2.Nodup →
    ((files.foldl (scanStep dp fp) st).1.1.Nodup ∧
      (files.foldl (scanStep dp fp) st).1.2.Nodup)
  | [], _, h1, h2 => ⟨h1, h2⟩
  | file :: fs, st, h1, h2 => by
    rw [List.foldl_cons]
    have h : (scan_log_file dp fp file st.1).1.1.Nodup ∧
        (scan_log_file dp fp file st.1).1.2.Nodup :=
      nodup_scan_log_file h1 h2
    exact nodup_scanSiteFold fs (scanStep dp fp st file) h.1 h.2

theorem nodup_scanSite {dp fp : Option Pattern} {files : List FileContent} :
    (scanSite dp fp files).1.1.Nodup ∧ (scanSite dp fp files).1.2.Nodup :=
  nodup_scanSiteFold files (([], []), 0) List.nodup_nil List.nodup_nil

theorem nodup_fst_eq {α β : Type} {l : List (α × β)}
    (h : (l.map Prod.fst).Nodup) {a : α} {b c : β}
    (hb : (a, b) ∈ l) (hc : (a, c) ∈ l) : b = c := by
  induction l with
  | nil => cases hb
  | cons x xs ih =>
    rw [List.map_cons, List.nodup_cons] at h
    obtain ⟨hnot, hnd⟩ := h
    rcases List.mem_cons.mp hb with hb1 | hb2 <;> rcases List.mem_cons.mp hc with hc1 | hc2
    · have := hb1.trans hc1.symm
      simpa using this
    · exfalso
      apply hnot
      rw [← hb1]
      simpa using List.mem_map_of_mem Prod.fst hc2
    · exfalso
      apply hnot
      rw [← hc1]
      simpa using List.mem_map_of_mem Prod.fst hb2
    · exact ih hnd hb2 hc2

theorem compile_pattern_ne_none {l : List String} (h : l ≠ []) :
    compile_pattern l = some ⟨l⟩ := by
  unfold compile_pattern
  rw [if_neg h]

theorem minerMain_eq_wrote (domLines funLines : List String)
    (sites : List (String × List FileContent)) :
    minerMain domLines funLines sites =
      MainOutcome.wrote
        (buildReport (minerPatterns (load_list domLines) (load_list funLines)).1
          (minerPatterns (load_list domLines) (load_list funLines)).2 sites) := by
  unfold minerMain mainWith
  rw [if_neg]
  · rfl
  · rintro (⟨hne, hnone⟩ | ⟨hne, hnone⟩)
    · have h1 : (minerPatternsWith compile_pattern (load_list domLines)
          (load_list funLines)).1 = compile_pattern (load_list domLines) := by
        simp [minerPatternsWith, hne]
      rw [h1, compile_pattern_ne_none hne] at hnone
      cases hnone
    · have h1 : (minerPatternsWith compile_pattern (load_list domLines)
          (load_list funLines)).2 = compile_pattern (load_list funLines) := by
        simp [minerPatternsWith, hne]
      rw [h1, compile_pattern_ne_none hne] at hnone
      cases hnone

/-- C6: a per-site scan over a file list containing an unreadable file and
a readable file with a match still collects the readable file's match into
the site's domain set; the unreadable file contributes exactly a warning
count, and the scan always completes (it is a total function of the file
list, so neither the site's remaining files nor other sites are
affected). -/
theorem C6_unreadable_file_skipped (dp fp : Option Pattern)
    (files : List FileContent)
    (hu : FileContent.unreadable ∈ files)
    (lines : List String) (hr : FileContent.readable lines ∈ files)
    (m : String) (pat : Pattern) (hdp : dp = some pat)
    (line : String) (hline : line ∈ lines) (hm : m ∈ pat.finditer line) :
    m ∈ (scanSite dp fp files).1.1 ∧ 1 ≤ (scanSite dp fp files).2 := by
  constructor
  · exact mem_scanSite_fst.mpr ⟨lines, hr, line, hline, pat, hdp, hm⟩
  · rw [scanSite_warn]
    have h : 0 < files.countP isUnreadable :=
      List.countP_pos_iff.mpr ⟨FileContent.unreadable, hu, rfl⟩
    omega

/-- C6 witness: one unreadable file plus one readable file whose only line
holds `api.openai.com`; the match is reported and one warning counted. -/
theorem C6_unreadable_file_skipped_witness :
    "api.openai.com" ∈ (scanSite (some ⟨["api.openai.com"]⟩) none
        [FileContent.unreadable,
          FileContent.readable ["GET https://api.openai.com/v1/chat"]]).1.1 ∧
      1 ≤ (scanSite (some ⟨["api.openai.com"]⟩) none
        [FileContent.unreadable,
          FileContent.readable ["GET https://api.openai.com/v1/chat"]]).2 :=
  C6_unreadable_file_skipped (some ⟨["api.openai.com"]⟩) none
    [FileContent.unreadable,
      FileContent.readable ["GET https://api.openai.com/v1/chat"]]
    (by decide) ["GET https://api.openai.com/v1/chat"] (by decide)
    "api.openai.com" ⟨["api.openai.com"]⟩ rfl
    "GET https://api.openai.com/v1/chat" (by decide) (by decide)

theorem scanLine_none_none (line : String) (acc : List String × List String) :
    scanLine none none line acc = acc := rfl

theorem scanLines_none_none : ∀ (lines : List String) (acc : List String × List String),
    lines.foldl (fun a line => scanLine none none line a) acc = acc
  | [], _ => rfl
  | line :: ls, acc => by
    rw [List.foldl_cons, scanLine_none_none]
    exact scanLines_none_none ls acc

theorem scanStep_none_none_fst (st : (List String × List String) × Nat)
    (f : FileContent) : (scanStep none none st f).1 = st.1 := by
  cases f with
  | readable lines => exact scanLines_none_none lines st.1
  | unreadable => rfl

theorem scanSite_none_none (files : List FileContent) :
    (scanSite none none files).1 = ([], []) := by
  suffices h : ∀ (fs : List FileContent) (st : (List String × List String) × Nat),
      (fs.foldl (scanStep none none) st).1 = st.1 by
    exact h files (([], []), 0)
  intro fs
  induction fs with
  | nil => intro st; rfl
  | cons f fs2 ih =>
    intro st
    rw [List.foldl_cons, ih, scanStep_none_none_fst]

/-- C7: when both dictionaries yield zero entries after blank/comment
filtering, the mining run still completes and writes the report file with
an empty mapping (no early error return). -/
theorem C7_empty_dictionaries (domLines funLines : List String)
    (sites : List (String × List FileContent))
    (hd : load_list domLines = []) (hf : load_list funLines = []) :
    minerMain domLines funLines sites = MainOutcome.wrote [] := by
  rw [minerMain_eq_wrote]
  have hdp : (minerPatterns (load_list domLines) (load_list funLines)).1 = none := by
    simp [minerPatterns, minerPatternsWith, hd]
  have hfp : (minerPatterns (load_list domLines) (load_list funLines)).2 = none := by
    simp [minerPatterns, minerPatternsWith, hf]
  rw [hdp, hfp]
  congr 1
  rw [buildReport]
  apply List.filterMap_eq_nil_iff.mpr
  intro site _
  simp [emitSite, scanSite_none_none]

/-- C7 witness: a comment-only domain dictionary and an empty function
dictionary still produce a written empty report over a non-trivial site. -/
theorem C7_empty_dictionaries_witness :
    minerMain ["# comment", "   "] []
      [("site", [FileContent.readable ["GET https://api.openai.com/"]])] =
      MainOutcome.wrote [] :=
  C7_empty_dictionaries ["# comment", "   "] []
    [("site", [FileContent.readable ["GET https://api.openai.com/"]])]
    (by decide) (by decide)

/-- C8: if a non-empty dictionary fails to compile (compilation failure is
injected through the compiler parameter, since `compile_pattern` itself
cannot fail on the escaped literals), `main` takes its early error return
before any site directory is scanned and writes no report; moreover the
actual compiler keeps every loaded entry in the compiled alternation, so
no entry is ever silently dropped. -/
theorem C8_compile_failure_aborts
    (compile : List String → Option Pattern)
    (domLines funLines : List String)
    (sites : List (String × List FileContent))
    (h : (load_list domLines ≠ [] ∧ compile (load_list domLines) = none) ∨
        (load_list funLines ≠ [] ∧ compile (load_list funLines) = none)) :
    mainWith compile domLines funLines sites = MainOutcome.earlyExit ∧
    (∀ l p, compile_pattern l = some p → p.entries = l) := by
  constructor
  · unfold mainWith
    rw [if_pos]
    rcases h with ⟨hne, hnone⟩ | ⟨hne, hnone⟩
    · exact Or.inl ⟨hne, by simp [minerPatternsWith, hne, hnone]⟩
    · exact Or.inr ⟨hne, by simp [minerPatternsWith, hne, hnone]⟩
  · intro l p hc
    unfold compile_pattern at hc
    split at hc
    · exact absurd hc (by simp)
    · rw [Option.some.injEq] at hc
      rw [← hc]

/-- C8 witness: an injected compiler that rejects the (non-empty) domain
dictionary makes the mining phase exit early with no report. -/
theorem C8_compile_failure_aborts_witness :
    mainWith (fun _ => none) ["api.openai.com"] []
      [("site", [FileContent.readable ["api.openai.com"]])] =
      MainOutcome.earlyExit :=
  (C8_compile_failure_aborts (fun _ => none) ["api.openai.com"] []
    [("site", [FileContent.readable ["api.openai.com"]])]
    (Or.inl ⟨by decide, rfl⟩)).1

/-- C2: a site scanned by `main` has an entry in the written report iff at
least one of its two match sets is non-empty; every emitted entry carries
both arrays (the `SiteEntry` record always has both fields, an empty set
appearing as the empty sequence), and both arrays are duplicate-free and
lexicographically sorted.  Site names are assumed distinct, as directory
names listed from one folder are. -/
theorem C2_emission_rule (domLines funLines : List String)
    (sites : List (String × List FileContent))
    (hnd : (sites.map Prod.fst).Nodup)
    (report : List (String × SiteEntry))
    (hrun : minerMain domLines funLines sites = MainOutcome.wrote report) :
    (∀ name files, (name, files) ∈ sites →
      ((∃ e, (name, e) ∈ report) ↔
        ((scanSite (minerPatterns (load_list domLines) (load_list funLines)).1
            (minerPatterns (load_list domLines) (load_list funLines)).2 files).1.1 ≠ [] ∨
          (scanSite (minerPatterns (load_list domLines) (load_list funLines)).1
            (minerPatterns (load_list domLines) (load_list funLines)).2 files).1.2 ≠ []))) ∧
    (∀ name e, (name, e) ∈ report →
      List.Sorted (· ≤ ·) e.domains ∧ e.domains.Nodup ∧
      List.Sorted (· ≤ ·) e.functions ∧ e.functions.Nodup) := by
  rw [minerMain_eq_wrote] at hrun
  have hrep : buildReport (minerPatterns (load_list domLines) (load_list funLines)).1
      (minerPatterns (load_list domLines) (load_list funLines)).2 sites = report := by
    injection hrun
  constructor
  · intro name files hmem
    constructor
    · rintro ⟨e, he⟩
      rw [← hrep, buildReport, List.mem_filterMap] at he
      obtain ⟨site, hsite, hemit⟩ := he
      unfold emitSite at hemit
      split at hemit
      · rename_i hcond
        rw [Option.some.injEq] at hemit
        have h1 : site.1 = name := congrArg Prod.fst hemit
        have h2 : (name, site.2) ∈ sites := by
          rw [← h1]
          exact hsite
        have hfe : site.2 = files := nodup_fst_eq hnd h2 hmem
        rw [← hfe]
        exact hcond
      · cases hemit
    · intro hcond
      refine ⟨⟨sortStrings (scanSite (minerPatterns (load_list domLines)
          (load_list funLines)).1 (minerPatterns (load_list domLines)
          (load_list funLines)).2 files).1.1,
        sortStrings (scanSite (minerPatterns (load_list domLines)
          (load_list funLines)).1 (minerPatterns (load_list domLines)
          (load_list funLines)).2 files).1.2⟩, ?_⟩
      rw [← hrep, buildReport, List.mem_filterMap]
      refine ⟨(name, files), hmem, ?_⟩
      unfold emitSite
      rw [if_pos hcond]
  · intro name e he
    rw [← hrep, buildReport, List.mem_filterMap] at he
    obtain ⟨site, hsite, hemit⟩ := he
    unfold emitSite at hemit
    split at hemit
    · rw [Option.some.injEq] at hemit
      have h2 : e = ⟨sortStrings (scanSite (minerPatterns (load_list domLines)
          (load_list funLines)).1 (minerPatterns (load_list domLines)
          (load_list funLines)).2 site.2).1.1,
        sortStrings (scanSite (minerPatterns (load_list domLines)
          (load_list funLines)).1 (minerPatterns (load_list domLines)
          (load_list funLines)).2 site.2).1.2⟩ := (congrArg Prod.snd hemit).symm
      rw [h2]
      exact ⟨sorted_sortStrings _, nodup_sortStrings _ nodup_scanSite.1,
        sorted_sortStrings _, nodup_sortStrings _ nodup_scanSite.2⟩
    · cases hemit

/-- C2 witness: with dictionary entry `alpha`, a site whose log contains
`alpha` is emitted; the theorem's emission rule applied at that site. -/
theorem C2_emission_rule_witness :
    ∃ e, ("site1", e) ∈ buildReport
        (minerPatterns (load_list ["alpha"]) (load_list [])).1
        (minerPatterns (load_list ["alpha"]) (load_list [])).2
        [("site1", [FileContent.readable ["x alpha y"]]),
          ("site2", [FileContent.readable ["nothing here"]])] := by
  have h := (C2_emission_rule ["alpha"] []
      [("site1", [FileContent.readable ["x alpha y"]]),
        ("site2", [FileContent.readable ["nothing here"]])] (by decide) _
      (minerMain_eq_wrote ["alpha"] []
        [("site1", [FileContent.readable ["x alpha y"]]),
          ("site2", [FileContent.readable ["nothing here"]])])).1 "site1"
      [FileContent.readable ["x alpha y"]] (by decide)
  exact h.mpr (by decide)

theorem emitSite_perm {dp fp : Option Pattern} {name : String}
    {files files2 : List FileContent} (h : List.Perm files files2) :
    emitSite dp fp (name, files) = emitSite dp fp (name, files2) := by
  have hmem1 : ∀ y : String,
      y ∈ (scanSite dp fp files).1.1 ↔ y ∈ (scanSite dp fp files2).1.1 := by
    intro y
    rw [mem_scanSite_fst, mem_scanSite_fst]
    constructor
    · rintro ⟨lines, hl, hrest⟩
      exact ⟨lines, (List.Perm.mem_iff h).mp hl, hrest⟩
    · rintro ⟨lines, hl, hrest⟩
      exact ⟨lines, (List.Perm.mem_iff h).mpr hl, hrest⟩
  have hmem2 : ∀ y : String,
      y ∈ (scanSite dp fp files).1.2 ↔ y ∈ (scanSite dp fp files2).1.2 := by
    intro y
    rw [mem_scanSite_snd, mem_scanSite_snd]
    constructor
    · rintro ⟨lines, hl, hrest⟩
      exact ⟨lines, (List.Perm.mem_iff h).mp hl, hrest⟩
    · rintro ⟨lines, hl, hrest⟩
      exact ⟨lines, (List.Perm.mem_iff h).mpr hl, hrest⟩
  have hs1 : sortStrings (scanSite dp fp files).1.1 =
      sortStrings (scanSite dp fp files2).1.1 :=
    sortStrings_eq_of_nodup_mem_iff nodup_scanSite.1 nodup_scanSite.1 hmem1
  have hs2 : sortStrings (scanSite dp fp files).1.2 =
      sortStrings (scanSite dp fp files2).1.2 :=
    sortStrings_eq_of_nodup_mem_iff nodup_scanSite.2 nodup_scanSite.2 hmem2
  have hne1 : ((scanSite dp fp files).1.1 ≠ []) ↔ ((scanSite dp fp files2).1.1 ≠ []) := by
    constructor
    · intro hne
      obtain ⟨y, hy⟩ := List.exists_mem_of_ne_nil _ hne
      exact List.ne_nil_of_mem ((hmem1 y).mp hy)
    · intro hne
      obtain ⟨y, hy⟩ := List.exists_mem_of_ne_nil _ hne
      exact List.ne_nil_of_mem ((hmem1 y).mpr hy)
  have hne2 : ((scanSite dp fp files).1.2 ≠ []) ↔ ((scanSite dp fp files2).1.2 ≠ []) := by
    constructor
    · intro hne
      obtain ⟨y, hy⟩ := List.exists_mem_of_ne_nil _ hne
      exact List.ne_nil_of_mem ((hmem2 y).mp hy)
    · intro hne
      obtain ⟨y, hy⟩ := List.exists_mem_of_ne_nil _ hne
      exact List.ne_nil_of_mem ((hmem2 y).mpr hy)
  have htr : ((scanSite dp fp files).1.1 ≠ [] ∨ (scanSite dp fp files).1.2 ≠ []) ↔
      ((scanSite dp fp files2).1.1 ≠ [] ∨ (scanSite dp fp files2).1.2 ≠ []) := by
    rw [hne1, hne2]
  simp only [emitSite]
  split_ifs with h1 h2 h3
  · rw [hs1, hs2]
  · exact absurd (htr.mp h1) h2
  · exact absurd (htr.mpr h3) h1
  · rfl

/-- C9: the miner is a pure function of the dictionary contents and the
artifact tree, so two runs over unchanged inputs give the same outcome and
byte-identical serialized reports; and a site's emitted entry does not
depend on the order its log files are listed in (matches are accumulated
into sets and sorted before emission). -/
theorem C9_idempotent_runs (domA funA domB funB : List String)
    (sitesA sitesB : List (String × List FileContent))
    (h1 : domA = domB) (h2 : funA = funB) (h3 : sitesA = sitesB) :
    (renderMain (minerMain domA funA sitesA) =
        renderMain (minerMain domB funB sitesB) ∧
      minerMain domA funA sitesA = minerMain domB funB sitesB) ∧
    (∀ (dp fp : Option Pattern) (name : String) (files files2 : List FileContent),
      List.Perm files files2 →
      emitSite dp fp (name, files) = emitSite dp fp (name, files2)) := by
  subst h1
  subst h2
  subst h3
  exact ⟨⟨rfl, rfl⟩, fun dp fp name files files2 h => emitSite_perm h⟩

/-- C9 witness: a re-run over the same inputs renders the same bytes, and
listing a site's two files in swapped order leaves its entry unchanged. -/
theorem C9_idempotent_runs_witness :
    renderMain (minerMain ["api.openai.com"] []
        [("site", [FileContent.unreadable,
          FileContent.readable ["x api.openai.com y"]])]) =
      renderMain (minerMain ["api.openai.com"] []
        [("site", [FileContent.unreadable,
          FileContent.readable ["x api.openai.com y"]])]) ∧
    emitSite (some ⟨["api.openai.com"]⟩) none
        ("site", [FileContent.unreadable,
          FileContent.readable ["x api.openai.com y"]]) =
      emitSite (some ⟨["api.openai.com"]⟩) none
        ("site", [FileContent.readable ["x api.openai.com y"],
          FileContent.unreadable]) :=
  ⟨((C9_idempotent_runs _ _ _ _ _ _ rfl rfl rfl).1).1,
    (C9_idempotent_runs ["api.openai.com"] [] ["api.openai.com"] []
        [("site", [FileContent.unreadable,
          FileContent.readable ["x api.openai.com y"]])]
        [("site", [FileContent.unreadable,
          FileContent.readable ["x api.openai.com y"]])] rfl rfl rfl).2
      (some ⟨["api.openai.com"]⟩) none "site" _ _ (by decide)⟩

theorem findFirstAt_eq_some {E : List (List Char)} {prev : Option Char}
    {rest : List Char} {v : List Char × List Char}
    (h : findFirstAt E prev rest = some v) :
    ∃ e ∈ E, tryEntry prev rest e = some v := by
  induction E with
  | nil => cases h
  | cons a as ih =>
    rw [findFirstAt, List.findSome?_cons] at h
    cases hta : tryEntry prev rest a with
    | some w =>
      rw [hta] at h
      rw [Option.some.injEq] at h
      exact ⟨a, by simp, by rw [hta, h]⟩
    | none =>
      rw [hta] at h
      obtain ⟨e, he, het⟩ := ih h
      exact ⟨e, by simp [he], het⟩

theorem tryEntry_eq_some {prev : Option Char} {rest e : List Char}
    {m s : List Char} (h : tryEntry prev rest e = some (m, s)) :
    rest = m ++ s ∧ caselessEqL e m := by
  unfold tryEntry at h
  have hstrip : caselessStrip e rest = some (m, s) := by
    cases hs : caselessStrip e rest with
    | none =>
      rw [hs] at h
      cases h
    | some ms =>
      rw [hs] at h
      have h2 : (if (wordB prev rest.head? && wordB (endChar ms.1 prev) ms.2.head?) = true
          then some ms else none) = some (m, s) := h
      by_cases hb : (wordB prev rest.head? && wordB (endChar ms.1 prev) ms.2.head?) = true
      · rw [if_pos hb] at h2
        injection h2 with h3
        rw [h3]
      · rw [if_neg hb] at h2
        cases h2
  exact caselessStrip_eq_some hstrip

theorem finditerGo_sound {E : List (List Char)} :
    ∀ (fuel : Nat) (prev : Option Char) (rest m : List Char),
    m ∈ finditerGo E fuel prev rest →
    m.IsInfix rest ∧ ∃ e ∈ E, caselessEqL e m := by
  intro fuel
  induction fuel with
  | zero =>
    intro prev rest m h
    cases h
  | succ f ih =>
    intro prev rest m h
    rw [finditerGo] at h
    unfold finditerBody at h
    cases hf : findFirstAt E prev rest with
    | some ms =>
      obtain ⟨mm, s⟩ := ms
      rw [hf] at h
      obtain ⟨e0, he0, het⟩ := findFirstAt_eq_some hf
      obtain ⟨hsplit, hceq⟩ := tryEntry_eq_some het
      cases mm with
      | nil =>
        cases rest with
        | nil =>
          rw [List.mem_singleton] at h
          subst h
          exact ⟨List.nil_infix, e0, he0, hceq⟩
        | cons c cs =>
          rcases List.mem_cons.mp h with rfl | h3
          · exact ⟨List.nil_infix, e0, he0, hceq⟩
          · obtain ⟨hinf, hex⟩ := ih (some c) cs m h3
            exact ⟨List.infix_cons hinf, hex⟩
      | cons x xs =>
        rcases List.mem_cons.mp h with rfl | h3
        · refine ⟨⟨[], s, ?_⟩, e0, he0, hceq⟩
          rw [hsplit]
          simp
        · obtain ⟨hinf, hex⟩ := ih (endChar (x :: xs) prev) s m h3
          refine ⟨hinf.trans ⟨x :: xs, [], ?_⟩, hex⟩
          rw [hsplit]
          simp
    | none =>
      rw [hf] at h
      cases rest with
      | nil => cases h
      | cons c cs =>
        obtain ⟨hinf, hex⟩ := ih (some c) cs m h
        exact ⟨List.infix_cons hinf, hex⟩

theorem finditer_sound {p : Pattern} {line s : String}
    (h : s ∈ p.finditer line) :
    s.toList.IsInfix line.toList ∧
      ∃ e ∈ p.entries, caselessEqL e.toList s.toList := by
  rw [Pattern.finditer, List.mem_map] at h
  obtain ⟨m, hm, hms⟩ := h
  obtain ⟨hinf, el, hel, hceq⟩ := finditerGo_sound _ _ _ _ hm
  rw [List.mem_map] at hel
  obtain ⟨e, he, hetl⟩ := hel
  subst hms
  constructor
  · exact hinf
  · refine ⟨e, he, ?_⟩
    rw [hetl]
    exact hceq

theorem minerPatterns_fst_entries {dl fl : List String} {pat : Pattern}
    (h : (minerPatterns dl fl).1 = some pat) : pat.entries = dl := by
  simp only [minerPatterns, minerPatternsWith] at h
  by_cases h0 : dl = []
  · rw [if_neg (by simp [h0])] at h
    cases h
  · rw [if_pos h0, compile_pattern_ne_none h0, Option.some.injEq] at h
    rw [← h]

theorem minerPatterns_snd_entries {dl fl : List String} {pat : Pattern}
    (h : (minerPatterns dl fl).2 = some pat) : pat.entries = fl := by
  simp only [minerPatterns, minerPatternsWith] at h
  by_cases h0 : fl = []
  · rw [if_neg (by simp [h0])] at h
    cases h
  · rw [if_pos h0, compile_pattern_ne_none h0, Option.some.injEq] at h
    rw [← h]

/-- C10: every string in an emitted entry's `domains` (resp. `functions`)
array occurs verbatim — with the log line's own letter case — as a
contiguous substring of some line of some readable log file of that site,
and equals some entry of the domain (resp. function) dictionary up to
letter case; the final conjunct shows concretely that the reported casing
follows the log, not the dictionary (`API.Example` in the dictionary,
`api.example` in the log and in the report). -/
theorem C10_reported_strings_sound (domLines funLines : List String)
    (sites : List (String × List FileContent))
    (name : String) (e : SiteEntry)
    (he : (name, e) ∈ buildReport
        (minerPatterns (load_list domLines) (load_list funLines)).1
        (minerPatterns (load_list domLines) (load_list funLines)).2 sites) :
    (∀ s ∈ e.domains, ∃ files, (name, files) ∈ sites ∧
      ∃ lines, FileContent.readable lines ∈ files ∧ ∃ line ∈ lines,
        s.toList.IsInfix line.toList ∧
        ∃ entry ∈ load_list domLines, caselessEqL entry.toList s.toList) ∧
    (∀ s ∈ e.functions, ∃ files, (name, files) ∈ sites ∧
      ∃ lines, FileContent.readable lines ∈ files ∧ ∃ line ∈ lines,
        s.toList.IsInfix line.toList ∧
        ∃ entry ∈ load_list funLines, caselessEqL entry.toList s.toList) ∧
    buildReport (minerPatterns (load_list ["API.Example"]) (load_list [])).1
        (minerPatterns (load_list ["API.Example"]) (load_list [])).2
        [("s", [FileContent.readable ["get api.example now"]])] =
      [("s", ⟨["api.example"], []⟩)] := by
  rw [buildReport, List.mem_filterMap] at he
  obtain ⟨site, hsite, hemit⟩ := he
  unfold emitSite at hemit
  split at hemit
  case isFalse => cases hemit
  case isTrue hcond =>
  rw [Option.some.injEq] at hemit
  have hname : site.1 = name := congrArg Prod.fst hemit
  have hE : e = ⟨sortStrings (scanSite
      (minerPatterns (load_list domLines) (load_list funLines)).1
      (minerPatterns (load_list domLines) (load_list funLines)).2 site.2).1.1,
    sortStrings (scanSite
      (minerPatterns (load_list domLines) (load_list funLines)).1
      (minerPatterns (load_list domLines) (load_list funLines)).2 site.2).1.2⟩ :=
    (congrArg Prod.snd hemit).symm
  refine ⟨?_, ?_, by decide⟩
  · intro s hs
    rw [hE] at hs
    have hs2 := mem_sortStrings.mp hs
    obtain ⟨lines, hlines, line, hline, pat, hpat, hfind⟩ := mem_scanSite_fst.mp hs2
    obtain ⟨hinf, entry, hentry, hceq⟩ := finditer_sound hfind
    refine ⟨site.2, ?_, lines, hlines, line, hline, hinf, entry, ?_, hceq⟩
    · rw [← hname]
      exact hsite
    · rw [← minerPatterns_fst_entries hpat]
      exact hentry
  · intro s hs
    rw [hE] at hs
    have hs2 := mem_sortStrings.mp hs
    obtain ⟨lines, hlines, line, hline, pat, hpat, hfind⟩ := mem_scanSite_snd.mp hs2
    obtain ⟨hinf, entry, hentry, hceq⟩ := finditer_sound hfind
    refine ⟨site.2, ?_, lines, hlines, line, hline, hinf, entry, ?_, hceq⟩
    · rw [← hname]
      exact hsite
    · rw [← minerPatterns_snd_entries hpat]
      exact hentry

/-- C10 witness: applying the soundness theorem to the concrete run whose
dictionary holds `API.Example` and whose log line holds `api.example`. -/
theorem C10_reported_strings_sound_witness :
    ∃ files, ("s", files) ∈ [("s", [FileContent.readable ["get api.example now"]])] ∧
      ∃ lines, FileContent.readable lines ∈ files ∧ ∃ line ∈ lines,
        "api.example".toList.IsInfix line.toList ∧
        ∃ entry ∈ load_list ["API.Example"],
          caselessEqL entry.toList "api.example".toList :=
  (C10_reported_strings_sound ["API.Example"] []
      [("s", [FileContent.readable ["get api.example now"]])] "s"
      ⟨["api.example"], []⟩ (by decide)).1 "api.example" (by decide)
